import Mathlib

/-!
Verification of the table/field/relation metadata builder of
`src/schema/table.go` (package `schema`).  The definitions below are a
shallow embedding of that file: Go structs become Lean structures, Go
pointer identity becomes structural identity (each concrete table holds
structurally distinct fields), Go maps become association lists with
set/erase operations, and Go panics become `Option.none` results.
-/

namespace Bun

/-! ## Naming resolver -/

def isUpperCh (c : Char) : Bool := 65 ≤ c.toNat && c.toNat ≤ 90

def isLowerCh (c : Char) : Bool := 97 ≤ c.toNat && c.toNat ≤ 122

def toLowerCh (c : Char) : Char :=
  if isUpperCh c then Char.ofNat (c.toNat + 32) else c

/-- Modelled from the spec: the Naming Resolver performs "deterministic
conversions from identifier-style names to SQL-style names" (the helper
`internal.Underscore` lives outside `src/`).  An upper-case letter is
lowered, and an underscore is inserted before it when it is neither the
first nor the last character and a neighbouring character is lower-case
(so that `AuthorID` becomes `author_id`). -/
def underscoreChars : Option Char → List Char → List Char
  | _, [] => []
  | prev, c :: rest =>
    let tail := underscoreChars (some c) rest
    if isUpperCh c then
      let prevLower := match prev with | some p => isLowerCh p | none => false
      let nextLower := match rest.head? with | some r => isLowerCh r | none => false
      if prev.isSome && !rest.isEmpty && (prevLower || nextLower) then
        '_' :: toLowerCh c :: tail
      else
        toLowerCh c :: tail
    else
      c :: tail

def underscore (s : String) : String := String.mk (underscoreChars none s.toList)

/-! ## Hook flags (table.go lines 22-32, 89-109, 804-812) -/

def beforeScanHookFlag : Nat := 2 ^ 0
def afterScanHookFlag : Nat := 2 ^ 1
def afterSelectHookFlag : Nat := 2 ^ 2
def beforeInsertHookFlag : Nat := 2 ^ 3
def afterInsertHookFlag : Nat := 2 ^ 4
def beforeUpdateHookFlag : Nat := 2 ^ 5
def afterUpdateHookFlag : Nat := 2 ^ 6
def beforeDeleteHookFlag : Nat := 2 ^ 7
def afterDeleteHookFlag : Nat := 2 ^ 8

/-- `internal.Flag.Set` (trivial bit set over `Nat`). -/
def flagSet (flags flag : Nat) : Nat := flags ||| flag

/-- `internal.Flag.Has` (trivial bit test over `Nat`). -/
def flagHas (flags flag : Nat) : Bool := flags &&& flag != 0

/-- Which hook interfaces `reflect.PtrTo(t.Type)` implements. -/
structure HookImpl where
  beforeScan : Bool
  afterScan : Bool
  afterSelect : Bool
  beforeInsert : Bool
  afterInsert : Bool
  beforeUpdate : Bool
  afterUpdate : Bool
  beforeDelete : Bool
  afterDelete : Bool
deriving DecidableEq

/-- `newTable` (lines 89-109): sets one flag per implemented hook
interface, in declaration order. -/
def newTableFlags (h : HookImpl) : Nat :=
  let hooks : List (Bool × Nat) :=
    [(h.beforeScan, beforeScanHookFlag),
     (h.afterScan, afterScanHookFlag),
     (h.afterSelect, afterSelectHookFlag),
     (h.beforeInsert, beforeInsertHookFlag),
     (h.afterInsert, afterInsertHookFlag),
     (h.beforeUpdate, beforeUpdateHookFlag),
     (h.afterUpdate, afterUpdateHookFlag),
     (h.beforeDelete, beforeDeleteHookFlag),
     (h.afterDelete, afterDeleteHookFlag)]
  hooks.foldl (fun acc p => if p.1 then flagSet acc p.2 else acc) 0

/-- Line 807: `HasBeforeInsertHook` tests `afterInsertHookFlag`. -/
def hasBeforeInsertHook (flags : Nat) : Bool := flagHas flags afterInsertHookFlag

/-- Line 808: `HasAfterInsertHook` tests `afterInsertHookFlag`. -/
def hasAfterInsertHook (flags : Nat) : Bool := flagHas flags afterInsertHookFlag

/-- A type implementing only the before-insert hook interface. -/
def onlyBeforeInsertImpl : HookImpl :=
  ⟨false, false, false, true, false, false, false, false, false⟩

/-! ## Soft-delete strategy selector (table.go lines 899-961) -/

/-- The static field types distinguished by `softDeleteFieldUpdater`:
`time.Time`, `sql.NullTime`, `sql.NullInt64`, a raw `int64`,
`*time.Time`, `*int64`, and any other (fallback) type. -/
inductive SDType
  | timeT
  | nullTimeT
  | nullIntT
  | int64T
  | ptrTimeT
  | ptrIntT
  | otherT
deriving DecidableEq

/-- Values of the soft-delete field.  Instants are nanosecond counts
(`time.Time` and `UnixNano` collapsed to one clock); `0` is the zero
instant.  Pointers are `Option`. -/
inductive SDValue
  | vTime : Nat → SDValue
  | vNullTime : Nat → Bool → SDValue
  | vNullInt : Nat → Bool → SDValue
  | vInt : Nat → SDValue
  | vPtrTime : Option Nat → SDValue
  | vPtrInt : Option Nat → SDValue
  | vOther : Option Nat → SDValue
deriving DecidableEq

/-- The zero `reflect.Value` of each static type. -/
def sdZero : SDType → SDValue
  | .timeT => .vTime 0
  | .nullTimeT => .vNullTime 0 false
  | .nullIntT => .vNullInt 0 false
  | .int64T => .vInt 0
  | .ptrTimeT => .vPtrTime none
  | .ptrIntT => .vPtrInt none
  | .otherT => .vOther none

/-- `softDeleteFieldUpdater` (lines 899-955) composed with invoking the
selected closure at instant `now`:
`time.Time` is set to `time.Now()`; `sql.NullTime` to
`sql.NullTime{Time: time.Now()}` (Valid left false); `sql.NullInt64` to
`sql.NullInt64{Int64: time.Now().UnixNano()}` (Valid left false); `int64`
to `UnixNano`; pointer types are rebound to a fresh value.  The final
fallback (`softDeleteFieldUpdaterFallback`, lines 957-961) is modelled
from the spec: `FieldScanner` lives outside `src/`, and the spec says the
fallback "delegates to the field's already-bound value-scan behavior with
the current time as input", so it stores `now`. -/
def softDeleteFieldUpdater (ft : SDType) (now : Nat) : SDValue → SDValue
  | _ =>
    match ft with
    | .timeT => .vTime now
    | .nullTimeT => .vNullTime now false
    | .nullIntT => .vNullInt now false
    | .int64T => .vInt now
    | .ptrTimeT => .vPtrTime (some now)
    | .ptrIntT => .vPtrInt (some now)
    | .otherT => .vOther (some now)

/-- `reflect.Value.IsZero` on each modelled value. -/
def sdIsZero : SDValue → Bool
  | .vTime n => n == 0
  | .vNullTime n v => n == 0 && v == false
  | .vNullInt n v => n == 0 && v == false
  | .vInt n => n == 0
  | .vPtrTime p => p == none
  | .vPtrInt p => p == none
  | .vOther p => p == none || p == some 0

/-- The instant stored in a soft-delete value, when one is stored. -/
def sdStamp : SDValue → Option Nat
  | .vTime n => some n
  | .vNullTime n _ => some n
  | .vNullInt n _ => some n
  | .vInt n => some n
  | .vPtrTime p => p
  | .vPtrInt p => p
  | .vOther p => p

/-! ## Data model (table.go lines 42-75 and field metadata) -/

/-- `reflect.Kind` restricted to what the relation algorithms inspect. -/
inductive TKind
  | struct'
  | slice
  | scalar
deriving DecidableEq

/-- The tag options consumed by the relation resolver
(`rel`, `join`, `m2m`, `polymorphic`). -/
structure Tag where
  rel : Option String
  join : Option String
  m2m : Option String
  polymorphic : Option String
deriving DecidableEq

def Tag.none' : Tag := ⟨none, none, none, none⟩

/-- `schema.Field`, restricted to the metadata the claims are about.
`typ` is the identifier of the field's (already dereferenced) static
type; for a slice field `elemTyp` is the identifier of
`indirectType(Type.Elem())`.  Go pointer identity of `*Field` is
modelled as structural identity. -/
structure Field where
  name : String
  goName : String
  index : List Nat
  typ : Nat
  elemTyp : Nat
  kind : TKind
  isPK : Bool
  autoIncrement : Bool
  tag : Tag
deriving DecidableEq

/-- `schema.Table`, restricted to the metadata the claims are about.
`fieldMap` is the Go map `FieldMap` as an association list whose keys
are kept unique by the set/erase operations below. -/
structure Table where
  typ : Nat
  name : String
  typeName : String
  modelName : String
  fields : List Field
  pks : List Field
  dataFields : List Field
  fieldMap : List (String × Field)
  allFields : List Field
deriving DecidableEq

/-- Go map assignment `m[k] = v`. -/
def mapSet (m : List (String × Field)) (k : String) (v : Field) :
    List (String × Field) :=
  (k, v) :: m.filter (fun p => p.1 ≠ k)

/-- Go map deletion `delete(m, k)`. -/
def mapErase (m : List (String × Field)) (k : String) :
    List (String × Field) :=
  m.filter (fun p => p.1 ≠ k)

/-- `fieldWithLock` (lines 164-169): a map lookup. -/
def fieldWithLock (t : Table) (name : String) : Option Field :=
  t.fieldMap.lookup name

/-- `removeField` the slice helper (lines 873-880): drop the first
pointer-equal element, if any. -/
def removeFieldL : List Field → Field → List Field
  | [], _ => []
  | f :: fs, field => if f = field then fs else f :: removeFieldL fs field

/-- `Table.addField` (lines 144-152). -/
def Table.addField (t : Table) (field : Field) : Table :=
  { t with
    fields := t.fields ++ [field]
    pks := if field.isPK then t.pks ++ [field] else t.pks
    dataFields := if field.isPK then t.dataFields else t.dataFields ++ [field]
    fieldMap := mapSet t.fieldMap field.name field }

/-- `Table.removeField` (lines 154-162). -/
def Table.removeField (t : Table) (field : Field) : Table :=
  { t with
    fields := removeFieldL t.fields field
    pks := if field.isPK then removeFieldL t.pks field else t.pks
    dataFields := if field.isPK then t.dataFields else removeFieldL t.dataFields field
    fieldMap := mapErase t.fieldMap field.name }

/-! ## Field discovery: duplicate-column handling
(`newField`, lines 313-336, and its caller `addFields`, lines 252-255) -/

/-- The deduplication step of `newField` (lines 318-324): `nf` is the
field value that lines 326-336 would build (its `name` the resolved SQL
name, its `index` the concatenated access path).  If a field with the
same column name is already registered and has the identical access
path, the existing field is returned with the table untouched and no new
field is created; if its access path differs, the prior field is removed
and the new field is used. -/
def newFieldDedup (t : Table) (nf : Field) : Table × Field :=
  match fieldWithLock t nf.name with
  | some field =>
    if field.index = nf.index then (t, field)
    else (t.removeField field, nf)
  | none => (t, nf)

/-- One discovery step as performed by `addFields` (lines 252-255):
`newField` followed by `addField` on its non-nil result. -/
def discover (t : Table) (nf : Field) : Table :=
  let r := newFieldDedup t nf
  r.1.addField r.2

/-! ## Primary-key fallback (`initFields`, lines 193-212) -/

/-- Modelled from the spec: `Field.markAsPK` is declared outside `src/`;
the spec says the matched field is "marked as primary key". -/
def markAsPK (f : Field) : Field := { f with isPK := true }

def substField (old new : Field) (l : List Field) : List Field :=
  l.map (fun f => if f = old then new else f)

def substFieldMap (old new : Field) (m : List (String × Field)) :
    List (String × Field) :=
  m.map (fun p => if p.2 = old then (p.1, new) else p)

/-- Mutating the shared `*Field` object `field` into `new` is modelled
by substituting it in every list that aliases it. -/
def Table.substEverywhere (t : Table) (old new : Field) : Table :=
  { t with
    fields := substField old new t.fields
    pks := substField old new t.pks
    dataFields := substField old new t.dataFields
    fieldMap := substFieldMap old new t.fieldMap
    allFields := substField old new t.allFields }

/-- The conventional key names tried by `initFields` (line 201), in
order. -/
def pkFallbackNames (t : Table) : List String :=
  ["id", "uuid", "pk_" ++ t.modelName]

/-- The loop of lines 201-208: first name present in `FieldMap` wins. -/
def firstFallbackField (t : Table) : List String → Option Field
  | [] => none
  | n :: ns =>
    match t.fieldMap.lookup n with
    | some f => some f
    | none => firstFallbackField t ns

/-- Lines 202-206: `field.markAsPK()` (mutating the shared object), then
`t.PKs = []*Field{field}`, then `t.DataFields = removeField(t.DataFields,
field)`. -/
def setFallbackPK (t : Table) (field : Field) : Table :=
  let f' := markAsPK field
  let t1 := t.substEverywhere field f'
  { t1 with pks := [f'], dataFields := removeFieldL t1.dataFields f' }

/-- Lines 209-211: `t.PKs[0].AutoIncrement = true` when exactly one
primary key resulted (again a mutation of the shared object). -/
def setAutoIncrement (t : Table) : Table :=
  match t.pks with
  | [f] =>
    let f' := { f with autoIncrement := true }
    let t1 := t.substEverywhere f f'
    { t1 with pks := [f'] }
  | _ => t

/-- The tail of `initFields` (lines 198-211), applied to the table state
after the full field scan. -/
def initFieldsFallback (t : Table) : Table :=
  if 0 < t.pks.length then t
  else
    let t1 :=
      match firstFallbackField t (pkFallbackNames t) with
      | some field => setFallbackPK t field
      | none => t
    if t1.pks.length = 1 then setAutoIncrement t1 else t1

/-! ## Relation descriptors and the join-tag parser
(`parseRelationJoin`, lines 882-895) -/

inductive RelKind
  | hasOne
  | belongsTo
  | hasMany
  | manyToMany
deriving DecidableEq

/-- `schema.Relation`, restricted to the metadata the claims are about.
Tables are referenced by their type identifier. -/
structure Relation where
  rtype : RelKind
  fieldGoName : String
  joinTableTyp : Nat
  m2mTableTyp : Nat
  baseFields : List Field
  joinFields : List Field
  m2mBaseFields : List Field
  m2mJoinFields : List Field
  polymorphicField : Option Field
  polymorphicValue : String
deriving DecidableEq

def mkRel (k : RelKind) (field : Field) (joinTyp : Nat) : Relation :=
  ⟨k, field.goName, joinTyp, 0, [], [], [], [], none, ""⟩

/-- `strings.Split` on a one-character separator (Go `strings.Split`
never returns an empty list). -/
def splitOnChar (c : Char) : List Char → List (List Char)
  | [] => [[]]
  | x :: xs =>
    let r := splitOnChar c xs
    if x = c then [] :: r
    else
      match r with
      | [] => [[x]]
      | y :: ys => (x :: y) :: ys

def goSplit (sep : Char) (s : String) : List String :=
  (splitOnChar sep s.toList).map (fun cs => String.mk cs)

def isSpaceCh (c : Char) : Bool :=
  c = ' ' || c = '\t' || c = '\n' || c = '\r'

/-- Go `strings.TrimSpace`, over the character list. -/
def goTrim (s : String) : String :=
  String.mk (((s.toList.dropWhile isSpaceCh).reverse.dropWhile isSpaceCh).reverse)

/-- One entry of the join list: `strings.Split(strings.TrimSpace(s), "=")`
must yield exactly two parts, else the construction aborts (line 889). -/
def parseJoinPair (s : String) : Option (String × String) :=
  match goSplit '=' (goTrim s) with
  | [a, b] => some (a, b)
  | _ => none

def parsePairList : List String → Option (List (String × String))
  | [] => some []
  | s :: rest =>
    match parseJoinPair s with
    | none => none
    | some p =>
      match parsePairList rest with
      | none => none
      | some ps => some (p :: ps)

/-- `parseRelationJoin` (lines 882-895): split the tag value on commas,
then each entry on `=`, keeping declaration order as base/join pairs. -/
def parseRelationJoin (join : String) : Option (List (String × String)) :=
  parsePairList (goSplit ',' join)

/-! ## The registry boundary and shared relation helpers -/

/-- `dialect.Tables().Ref` restricted to an explicit finite registry. -/
def refTable (g : List Table) (typ : Nat) : Option Table :=
  g.find? (fun tb => tb.typ = typ)

/-- `dialect.Tables().ByName`, for junction-table lookup. -/
def byNameTable (g : List Table) (name : String) : Option Table :=
  g.find? (fun tb => tb.name = name)

/-- `CheckPKs` (lines 137-142) used as a panic guard: `none` aborts. -/
def checkPKsOpt (t : Table) : Option Unit :=
  if t.pks.length = 0 then none else some ()

/-- `fieldByGoName` (lines 184-191). -/
def fieldByGoName (t : Table) (name : String) : Option Field :=
  t.allFields.find? (fun f => f.goName = name)

/-- The convention-based foreign-key lookup repeated verbatim in
`hasOneRelation` (513-523), `belongsToRelation` (573-583) and
`hasManyRelation` (649-659): for one primary key, try the prefixed
column first, then the bare primary-key name. -/
def resolveFK (tbl : Table) (fkPref : String) (pk : Field) : Option Field :=
  match fieldWithLock tbl (fkPref ++ pk.name) with
  | some fk => some fk
  | none => fieldWithLock tbl pk.name

/-- The per-primary-key loop: the first key that resolves to neither
column aborts the construction. -/
def resolveList (f : Field → Option Field) : List Field → Option (List Field)
  | [] => some []
  | pk :: pks =>
    match f pk with
    | none => none
    | some fk =>
      match resolveList f pks with
      | none => none
      | some fks => some (fk :: fks)

/-- The explicit-join loop shared by `hasOneRelation` (487-507) and
`belongsToRelation` (548-567): each declared pair must resolve on both
sides, in declaration order. -/
def resolvePairs (base join : Table) :
    List (String × String) → Option (List Field × List Field)
  | [] => some ([], [])
  | (b, j) :: rest =>
    match fieldWithLock base b with
    | none => none
    | some bf =>
      match fieldWithLock join j with
      | none => none
      | some jf =>
        match resolvePairs base join rest with
        | none => none
        | some (bs, js) => some (bf :: bs, jf :: js)

/-! ## `hasOneRelation` (lines 473-532) -/

def hasOneRelation (g : List Table) (t : Table) (field : Field) :
    Option Relation :=
  match refTable g field.typ with
  | none => none
  | some joinTable =>
    match checkPKsOpt joinTable with
    | none => none
    | some _ =>
      match field.tag.join with
      | some join =>
        match parseRelationJoin join with
        | none => none
        | some pairs =>
          match resolvePairs t joinTable pairs with
          | none => none
          | some (bs, js) =>
            some { mkRel .hasOne field joinTable.typ with
                   baseFields := bs, joinFields := js }
      | none =>
        let fkPref := underscore field.goName ++ "_"
        match resolveList (resolveFK t fkPref) joinTable.pks with
        | none => none
        | some bs =>
          some { mkRel .hasOne field joinTable.typ with
                 baseFields := bs, joinFields := joinTable.pks }

/-! ## `belongsToRelation` (lines 534-592) -/

def belongsToRelation (g : List Table) (t : Table) (field : Field) :
    Option Relation :=
  match checkPKsOpt t with
  | none => none
  | some _ =>
    match refTable g field.typ with
    | none => none
    | some joinTable =>
      match field.tag.join with
      | some join =>
        match parseRelationJoin join with
        | none => none
        | some pairs =>
          match resolvePairs t joinTable pairs with
          | none => none
          | some (bs, js) =>
            some { mkRel .belongsTo field joinTable.typ with
                   baseFields := bs, joinFields := js }
      | none =>
        let fkPref := underscore t.modelName ++ "_"
        match resolveList (resolveFK joinTable fkPref) t.pks with
        | none => none
        | some js =>
          some { mkRel .belongsTo field joinTable.typ with
                 baseFields := t.pks, joinFields := js }

/-! ## `hasManyRelation` (lines 594-685) -/

/-- The explicit-join loop of `hasManyRelation` (616-641): a pair whose
base column is the literal token `type` is consumed as the polymorphic
discriminator (the last such pair wins) instead of contributing a column
pair. -/
def hasManyPairsLoop (t join : Table) (isPoly : Bool) :
    List (String × String) → Option (List Field × List Field × Option String)
  | [] => some ([], [], none)
  | (b, j) :: rest =>
    if isPoly ∧ b = "type" then
      match hasManyPairsLoop t join isPoly rest with
      | none => none
      | some (bs, js, pc) =>
        some (bs, js, some (pc.getD j))
    else
      match fieldWithLock t b with
      | none => none
      | some bf =>
        match fieldWithLock join j with
        | none => none
        | some jf =>
          match hasManyPairsLoop t join isPoly rest with
          | none => none
          | some (bs, js, pc) => some (bf :: bs, jf :: js, pc)

def hasManyRelation (g : List Table) (t : Table) (field : Field) :
    Option Relation :=
  match checkPKsOpt t with
  | none => none
  | some _ =>
    if field.kind ≠ TKind.slice then none
    else
      match refTable g field.elemTyp with
      | none => none
      | some joinTable =>
        let isPoly := field.tag.polymorphic.isSome
        let rel := mkRel .hasMany field joinTable.typ
        let resolved : Option (List Field × List Field × Option String) :=
          match field.tag.join with
          | some join =>
            match parseRelationJoin join with
            | none => none
            | some pairs => hasManyPairsLoop t joinTable isPoly pairs
          | none =>
            let fkPref := underscore t.modelName ++ "_"
            let pc := if isPoly then some (fkPref ++ "type") else none
            match resolveList (resolveFK joinTable fkPref) t.pks with
            | none => none
            | some js => some (t.pks, js, pc)
        match resolved with
        | none => none
        | some (bs, js, pc) =>
          if isPoly then
            match fieldWithLock joinTable (pc.getD "") with
            | none => none
            | some pf =>
              let pv := field.tag.polymorphic.getD ""
              some { rel with
                     baseFields := bs, joinFields := js,
                     polymorphicField := some pf,
                     polymorphicValue := if pv = "" then t.modelName else pv }
          else
            some { rel with baseFields := bs, joinFields := js }

/-! ## `m2mRelation` (lines 687-760) -/

def m2mRelation (g : List Table) (t : Table) (field : Field) :
    Option Relation :=
  if field.kind ≠ TKind.slice then none
  else
    match refTable g field.elemTyp with
    | none => none
    | some joinTable =>
      match checkPKsOpt t with
      | none => none
      | some _ =>
        match checkPKsOpt joinTable with
        | none => none
        | some _ =>
          match field.tag.m2m with
          | none => none
          | some m2mName =>
            match byNameTable g m2mName with
            | none => none
            | some m2mTable =>
              let cols : Option (String × String) :=
                match field.tag.join with
                | some join =>
                  match parseRelationJoin join with
                  | none => none
                  | some pairs =>
                    match pairs with
                    | [] => none
                    | p :: _ => some (p.1, p.2)
                | none => some (t.typeName, joinTable.typeName)
              match cols with
              | none => none
              | some (leftColumn, rightColumn) =>
                match fieldByGoName m2mTable leftColumn with
                | none => none
                | some leftField =>
                  match fieldByGoName m2mTable rightColumn with
                  | none => none
                  | some rightField =>
                    match hasOneRelation g m2mTable leftField with
                    | none => none
                    | some leftRel =>
                      match hasOneRelation g m2mTable rightField with
                      | none => none
                      | some rightRel =>
                        some { mkRel .manyToMany field joinTable.typ with
                               m2mTableTyp := m2mTable.typ
                               baseFields := leftRel.joinFields
                               m2mBaseFields := leftRel.baseFields
                               joinFields := rightRel.joinFields
                               m2mJoinFields := rightRel.baseFields }

/-- Dispatch on the relation kind, as `initRelation`/`tryRelation`
(lines 429-460) do on the tag value. -/
def convRelation (k : RelKind) (g : List Table) (t : Table) (field : Field) :
    Option Relation :=
  match k with
  | .hasOne => hasOneRelation g t field
  | .belongsTo => belongsToRelation g t field
  | .hasMany => hasManyRelation g t field
  | .manyToMany => m2mRelation g t field

/-- Projection used to state the convention rules: which type the
relation target is looked up under (`Ref(field.Type)` for has-one and
belongs-to, `Ref(indirectType(field.Type.Elem()))` for has-many and
many-to-many). -/
def convTargetTyp (k : RelKind) (field : Field) : Nat :=
  match k with
  | .hasOne => field.typ
  | .belongsTo => field.typ
  | .hasMany => field.elemTyp
  | .manyToMany => field.elemTyp

/-- The table searched for the conventional foreign-key columns: the
owner for has-one, the target for belongs-to and has-many. -/
def convSearched (k : RelKind) (t jt : Table) : Table :=
  match k with
  | .hasOne => t
  | _ => jt

/-- The conventional column prefix: the owning field name for has-one,
the owner model name for belongs-to and has-many. -/
def convPref (k : RelKind) (t : Table) (field : Field) : String :=
  match k with
  | .hasOne => underscore field.goName ++ "_"
  | _ => underscore t.modelName ++ "_"

/-- The primary keys driving the loop: the target's for has-one, the
owner's for belongs-to and has-many. -/
def convPKs (k : RelKind) (t jt : Table) : List Field :=
  match k with
  | .hasOne => jt.pks
  | _ => t.pks

/-- Which side of the relation receives the conventionally resolved
columns: `BaseFields` for has-one, `JoinFields` for belongs-to and
has-many. -/
def convResolved (k : RelKind) (rel : Relation) : List Field :=
  match k with
  | .hasOne => rel.baseFields
  | _ => rel.joinFields

/-! ## Field inliner (`inlineFields`, lines 762-796)

The Go recursion threads one mutable visited-type set and the owning
table's field map through the recursion; here both are threaded
explicitly and the recursion depth is paid for by a fuel argument.  The
termination theorem below shows the result is independent of the fuel
once it reaches the visited-set bound, which is exactly the cycle
protection of the source. -/

/-- `t.dialect.Tables().Ref(strct.Type).allFields` (line 774-775); a
type the registry does not know is a table without fields. -/
def allFieldsOf (g : List Table) (typ : Nat) : List Field :=
  match refTable g typ with
  | some tb => tb.allFields
  | none => []

/-- Lines 776-780: clone a field of the embedded table, prefixing the
attribute name with `<parent>_`, the column name with `<parent>__`, and
prepending the parent's access path. -/
def cloneInto (strct f : Field) : Field :=
  { f with
    goName := strct.goName ++ "_" ++ f.goName
    name := strct.name ++ "__" ++ f.name
    index := strct.index ++ f.index }

/-- The loop body of `inlineFields` (lines 775-795), parameterized by
the recursive call: register each clone into the field map only when its
name is absent (first registration wins, lines 782-786), and recurse
into record-shaped clones whose type is not yet visited (lines 788-794).
-/
def inlineLoopF
    (rec : Field → List (String × Field) → List Nat →
      List (String × Field) × List Nat)
    (strct : Field) :
    List Field → List (String × Field) → List Nat →
      List (String × Field) × List Nat
  | [], fm, path => (fm, path)
  | f :: rest, fm, path =>
    let f' := cloneInto strct f
    let fm1 :=
      match fm.lookup f'.name with
      | some _ => fm
      | none => (f'.name, f') :: fm
    let st :=
      if f'.kind = TKind.struct' then
        if f'.typ ∈ path then (fm1, path) else rec f' fm1 path
      else (fm1, path)
    inlineLoopF rec strct rest st.1 st.2

/-- `inlineFields` (lines 762-796) with explicit fuel: a type already in
the visited set is skipped entirely (line 769), otherwise it is added
(line 772) and its fields are walked. -/
def inlineGo :
    Nat → List Table → Field → List (String × Field) → List Nat →
      List (String × Field) × List Nat
  | 0, _, _, fm, path => (fm, path)
  | n + 1, g, strct, fm, path =>
    if strct.typ ∈ path then (fm, path)
    else inlineLoopF (inlineGo n g) strct (allFieldsOf g strct.typ) fm
      (strct.typ :: path)

/-- Every type identifier the inlining recursion can ever insert into
the visited set: the registered table types and the static types of all
registered fields. -/
def regTypes (g : List Table) : List Nat :=
  g.map Table.typ ++ g.flatMap (fun tb => tb.allFields.map Field.typ)

def typeSet (g : List Table) : Finset Nat := (regTypes g).toFinset

/-- How many registry types are not yet in the visited set. -/
def newTypes (g : List Table) (path : List Nat) : Nat :=
  (typeSet g \ path.toFinset).card

/-- `initInlines`/`initRelations` entry point (lines 403-426 calling
762-767): the visited set is seeded with the owning table's own type,
and the fuel is the visited-set bound. -/
def inlineFields (g : List Table) (ownerTyp : Nat) (strct : Field)
    (fm : List (String × Field)) : List (String × Field) :=
  (inlineGo ((typeSet g).card + 1) g strct fm [ownerTyp]).1

/-! ## Concrete tables for the end-to-end scenarios -/

def noTag : Tag := Tag.none'

def authorIDField : Field :=
  ⟨"id", "ID", [0], 0, 0, .scalar, true, false, noTag⟩

def authorNameField : Field :=
  ⟨"name", "Name", [1], 0, 0, .scalar, false, false, noTag⟩

def authorTable : Table :=
  { typ := 1, name := "authors", typeName := "Author", modelName := "author"
    fields := [authorIDField, authorNameField]
    pks := [authorIDField]
    dataFields := [authorNameField]
    fieldMap := [("id", authorIDField), ("name", authorNameField)]
    allFields := [authorIDField, authorNameField] }

def bookIDField : Field :=
  ⟨"id", "ID", [0], 0, 0, .scalar, true, false, noTag⟩

def bookAuthorIDField : Field :=
  ⟨"author_id", "AuthorID", [1], 0, 0, .scalar, false, false, noTag⟩

def bookAuthorField : Field :=
  ⟨"author", "Author", [2], 1, 0, .struct', false, false,
    ⟨some "belongs-to", none, none, none⟩⟩

def bookTable : Table :=
  { typ := 2, name := "books", typeName := "Book", modelName := "book"
    fields := [bookIDField, bookAuthorIDField, bookAuthorField]
    pks := [bookIDField]
    dataFields := [bookAuthorIDField, bookAuthorField]
    fieldMap := [("id", bookIDField), ("author_id", bookAuthorIDField),
                 ("author", bookAuthorField)]
    allFields := [bookIDField, bookAuthorIDField, bookAuthorField] }

def gAuthorBook : List Table := [authorTable, bookTable]

/-- A has-one-tagged variant of the Author field, for exercising the
has-one convention against the same tables. -/
def bookAuthorHasOneField : Field :=
  ⟨"author", "Author", [2], 1, 0, .struct', false, false,
    ⟨some "has-one", none, none, none⟩⟩

/-- The relation the code actually builds for the Book/Author scenario. -/
def bookAuthorRel : Relation :=
  { mkRel .belongsTo bookAuthorField 1 with
    baseFields := [bookIDField], joinFields := [authorIDField] }

/-! Concrete tables for the polymorphic has-many degenerate case. -/

def ownerIDField : Field :=
  ⟨"id", "ID", [0], 0, 0, .scalar, true, false, noTag⟩

def ownerItemsField : Field :=
  ⟨"items", "Items", [1], 0, 4, .slice, false, false,
    ⟨some "has-many", some "type=kind", none, some ""⟩⟩

def ownerTable : Table :=
  { typ := 3, name := "owners", typeName := "Owner", modelName := "owner"
    fields := [ownerIDField, ownerItemsField]
    pks := [ownerIDField]
    dataFields := [ownerItemsField]
    fieldMap := [("id", ownerIDField), ("items", ownerItemsField)]
    allFields := [ownerIDField, ownerItemsField] }

def itemIDField : Field :=
  ⟨"id", "ID", [0], 0, 0, .scalar, true, false, noTag⟩

def itemKindField : Field :=
  ⟨"kind", "Kind", [1], 0, 0, .scalar, false, false, noTag⟩

def itemTable : Table :=
  { typ := 4, name := "items", typeName := "Item", modelName := "item"
    fields := [itemIDField, itemKindField]
    pks := [itemIDField]
    dataFields := [itemKindField]
    fieldMap := [("id", itemIDField), ("kind", itemKindField)]
    allFields := [itemIDField, itemKindField] }

def gOwnerItem : List Table := [ownerTable, itemTable]

/-! Concrete tables for the many-to-many scenario
(`Post`/`Tag`/`post_tags`). -/

def tagIDField : Field :=
  ⟨"id", "ID", [0], 0, 0, .scalar, true, false, noTag⟩

def tagTable : Table :=
  { typ := 5, name := "tags", typeName := "Tag", modelName := "tag"
    fields := [tagIDField]
    pks := [tagIDField]
    dataFields := []
    fieldMap := [("id", tagIDField)]
    allFields := [tagIDField] }

def postIDField : Field :=
  ⟨"id", "ID", [0], 0, 0, .scalar, true, false, noTag⟩

def postTagsField : Field :=
  ⟨"tags", "Tags", [1], 0, 5, .slice, false, false,
    ⟨none, none, some "post_tags", none⟩⟩

def postTable : Table :=
  { typ := 6, name := "posts", typeName := "Post", modelName := "post"
    fields := [postIDField, postTagsField]
    pks := [postIDField]
    dataFields := [postTagsField]
    fieldMap := [("id", postIDField), ("tags", postTagsField)]
    allFields := [postIDField, postTagsField] }

def ptPostIDField : Field :=
  ⟨"post_id", "PostID", [0], 0, 0, .scalar, false, false, noTag⟩

def ptTagIDField : Field :=
  ⟨"tag_id", "TagID", [1], 0, 0, .scalar, false, false, noTag⟩

def ptPostField : Field :=
  ⟨"post", "Post", [2], 6, 0, .struct', false, false, noTag⟩

def ptTagField : Field :=
  ⟨"tag", "Tag", [3], 5, 0, .struct', false, false, noTag⟩

def postTagsTable : Table :=
  { typ := 7, name := "post_tags", typeName := "PostTag", modelName := "post_tag"
    fields := [ptPostIDField, ptTagIDField, ptPostField, ptTagField]
    pks := []
    dataFields := [ptPostIDField, ptTagIDField, ptPostField, ptTagField]
    fieldMap := [("post_id", ptPostIDField), ("tag_id", ptTagIDField),
                 ("post", ptPostField), ("tag", ptTagField)]
    allFields := [ptPostIDField, ptTagIDField, ptPostField, ptTagField] }

def gPostTag : List Table := [tagTable, postTable, postTagsTable]

/-- The many-to-many relation the code builds for the Post/Tag scenario. -/
def postTagsRel : Relation :=
  { mkRel .manyToMany postTagsField 5 with
    m2mTableTyp := 7
    baseFields := [postIDField]
    m2mBaseFields := [ptPostIDField]
    joinFields := [tagIDField]
    m2mJoinFields := [ptTagIDField] }

/-! Concrete table for the primary-key fallback witness. -/

def userIDField : Field :=
  ⟨"id", "ID", [0], 0, 0, .scalar, false, false, noTag⟩

def userTable : Table :=
  { typ := 8, name := "users", typeName := "User", modelName := "user"
    fields := [userIDField]
    pks := []
    dataFields := [userIDField]
    fieldMap := [("id", userIDField)]
    allFields := [userIDField] }

/-! Concrete table for the duplicate-column-name claims. -/

def dupXField : Field :=
  ⟨"x", "X", [0], 0, 0, .scalar, false, false, noTag⟩

def dupYField : Field :=
  ⟨"x", "Y", [1], 0, 0, .scalar, false, false, noTag⟩

def dupTable : Table :=
  { typ := 9, name := "dups", typeName := "Dup", modelName := "dup"
    fields := [dupXField]
    pks := []
    dataFields := [dupXField]
    fieldMap := [("x", dupXField)]
    allFields := [dupXField] }

/-! Concrete self-referential registry for the inliner witness: a type
whose only (skipped) field has the owning type itself. -/

def nodeChildField : Field :=
  ⟨"child", "Child", [0], 11, 0, .struct', false, false, noTag⟩

def nodeTable : Table :=
  { typ := 10, name := "nodes", typeName := "Node", modelName := "node"
    fields := []
    pks := []
    dataFields := []
    fieldMap := [("child", nodeChildField)]
    allFields := [nodeChildField] }

def leafParentField : Field :=
  ⟨"parent", "Parent", [0], 10, 0, .struct', false, false, noTag⟩

def leafTable : Table :=
  { typ := 11, name := "leaves", typeName := "Leaf", modelName := "leaf"
    fields := []
    pks := []
    dataFields := []
    fieldMap := [("parent", leafParentField)]
    allFields := [leafParentField] }

def selfField : Field :=
  ⟨"self", "Self", [0], 12, 0, .struct', false, false, noTag⟩

def selfTable : Table :=
  { typ := 12, name := "selves", typeName := "Own", modelName := "own"
    fields := []
    pks := []
    dataFields := []
    fieldMap := [("self", selfField)]
    allFields := [selfField] }

def gCycle : List Table := [selfTable, nodeTable, leafTable]

/-- The degenerate shape under which a completed polymorphic has-many
relation carries no column pairs: every explicitly declared join pair is
the `type` discriminator pair. -/
def polyDegenerate (field : Field) : Prop :=
  field.tag.polymorphic.isSome = true ∧
  ∃ join pairs, field.tag.join = some join ∧
    parseRelationJoin join = some pairs ∧ ∀ p ∈ pairs, p.1 = "type"

/-! ## Helper lemmas -/

theorem lookup_filter_ne (l : List (String × Field)) (k k' : String)
    (hkk : k ≠ k') : (l.filter (fun p => p.1 ≠ k')).lookup k = l.lookup k := by
  induction l with
  | nil => rfl
  | cons p rest ih =>
    rcases p with ⟨pk, pv⟩
    by_cases hp : pk = k'
    · subst hp
      have hk : (k == pk) = false := beq_eq_false_iff_ne.mpr hkk
      rw [List.filter_cons_of_neg (by simp), ih, List.lookup_cons, hk]
    · rw [List.filter_cons_of_pos (by simp [hp]), List.lookup_cons,
        List.lookup_cons]
      cases hkeq : k == pk with
      | true => rfl
      | false => exact ih

theorem lookup_filter_self (l : List (String × Field)) (k : String) :
    (l.filter (fun p => p.1 ≠ k)).lookup k = none := by
  induction l with
  | nil => rfl
  | cons p rest ih =>
    rcases p with ⟨pk, pv⟩
    by_cases hp : pk = k
    · rw [List.filter_cons_of_neg (by simp [hp]), ih]
    · have hk : (k == pk) = false := beq_eq_false_iff_ne.mpr (fun h => hp h.symm)
      rw [List.filter_cons_of_pos (by simp [hp]), List.lookup_cons, hk, ih]

theorem lookup_mapSet_self (m : List (String × Field)) (k : String) (v : Field) :
    (mapSet m k v).lookup k = some v := by
  rw [mapSet, List.lookup_cons]
  simp

theorem mem_removeFieldL (l : List Field) (a x : Field)
    (h : x ∈ removeFieldL l a) : x ∈ l := by
  induction l with
  | nil => simp [removeFieldL] at h
  | cons f fs ih =>
    by_cases hf : f = a
    · rw [removeFieldL, if_pos hf] at h
      exact List.mem_cons_of_mem _ h
    · rw [removeFieldL, if_neg hf] at h
      rcases List.mem_cons.mp h with h | h
      · exact h ▸ List.mem_cons_self _ _
      · exact List.mem_cons_of_mem _ (ih h)

theorem not_mem_removeFieldL_of_count (l : List Field) (a : Field)
    (h : l.count a ≤ 1) : a ∉ removeFieldL l a := by
  induction l with
  | nil => simp [removeFieldL]
  | cons f fs ih =>
    by_cases hf : f = a
    · subst hf
      rw [removeFieldL, if_pos rfl]
      have : fs.count f = 0 := by
        have := List.count_cons_self f fs
        omega
      exact List.count_eq_zero.mp this
    · have hc : fs.count a ≤ 1 := by
        have hcc := List.count_cons a f fs
        have : (f == a) = false := beq_eq_false_iff_ne.mpr hf
        rw [this] at hcc
        omega
      rw [removeFieldL, if_neg hf]
      intro hmem
      rcases List.mem_cons.mp hmem with h' | h'
      · exact hf h'.symm
      · exact ih hc h'

theorem substField_eq_of_not_mem (l : List Field) (a b : Field) (h : a ∉ l) :
    substField a b l = l := by
  induction l with
  | nil => rfl
  | cons f fs ih =>
    have hfa : ¬f = a := fun hf => h (hf ▸ List.mem_cons_self _ _)
    have hfs : a ∉ fs := fun hmem => h (List.mem_cons_of_mem _ hmem)
    rw [substField, List.map_cons, if_neg hfa]
    have := ih hfs
    rw [substField] at this
    rw [this]

theorem not_mem_substField (l : List Field) (a b : Field) (hab : a ≠ b) :
    a ∉ substField a b l := by
  intro h
  rw [substField] at h
  rcases List.mem_map.mp h with ⟨d, _, hd⟩
  by_cases hda : d = a
  · rw [if_pos hda] at hd
    exact hab hd.symm
  · rw [if_neg hda] at hd
    exact hda hd

theorem mem_of_mem_substField (l : List Field) (a b c : Field)
    (hcb : c ≠ b) (h : c ∈ substField a b l) : c ∈ l := by
  rw [substField] at h
  rcases List.mem_map.mp h with ⟨d, hdl, hd⟩
  by_cases hda : d = a
  · rw [if_pos hda] at hd
    exact absurd hd.symm hcb
  · rw [if_neg hda] at hd
    exact hd ▸ hdl

theorem count_substField_target (l : List Field) (a b : Field)
    (hb : b ∉ l) :
    (substField a b l).count b = l.count a := by
  induction l with
  | nil => rfl
  | cons f fs ih =>
    have hbf : ¬b = f := fun h => hb (h ▸ List.mem_cons_self _ _)
    have hbfs : b ∉ fs := fun hmem => hb (List.mem_cons_of_mem _ hmem)
    have ihv := ih hbfs
    rw [substField] at ihv ⊢
    by_cases hf : f = a
    · rw [List.map_cons, if_pos hf, List.count_cons, List.count_cons, ihv, hf]
      simp
    · have hfb : (f == b) = false := beq_eq_false_iff_ne.mpr (fun h => hbf h.symm)
      have hfa : (f == a) = false := beq_eq_false_iff_ne.mpr hf
      rw [List.map_cons, if_neg hf, List.count_cons, List.count_cons, ihv, hfb, hfa]

/-! ## C10 -/

/-- C10: for every table, `HasBeforeInsertHook` and `HasAfterInsertHook`
return the same boolean, both testing the after-insert hook flag; in
particular a type implementing only the before-insert hook interface is
reported as not having a before-insert hook. -/
theorem c10_insert_hooks :
    (∀ h : HookImpl,
        hasBeforeInsertHook (newTableFlags h) = hasAfterInsertHook (newTableFlags h)) ∧
    (onlyBeforeInsertImpl.beforeInsert = true ∧
      hasBeforeInsertHook (newTableFlags onlyBeforeInsertImpl) = false) :=
  ⟨fun _ => rfl, by decide⟩

/-! ## C9 -/

/-- C9: for every supported soft-delete static field type, invoking the
closure selected at construction time at instant `now` on the zero value
leaves the field non-zero, and the stored instant is at least any time
`t0` captured before the invocation. -/
theorem c9_soft_delete (ft : SDType) (now t0 : Nat) (h0 : 0 < now)
    (ht : t0 ≤ now) :
    sdIsZero (softDeleteFieldUpdater ft now (sdZero ft)) = false ∧
    ∃ s, sdStamp (softDeleteFieldUpdater ft now (sdZero ft)) = some s ∧ t0 ≤ s := by
  have hne : now ≠ 0 := Nat.pos_iff_ne_zero.mp h0
  cases ft <;>
    exact ⟨by simp [softDeleteFieldUpdater, sdIsZero, hne], now, rfl, ht⟩

/-- Witness for C9 at the plain-timestamp type, `now = 5`, `t0 = 3`. -/
theorem c9_soft_delete_witness :
    (0 < 5 ∧ 3 ≤ 5) ∧
    (sdIsZero (softDeleteFieldUpdater .timeT 5 (sdZero .timeT)) = false ∧
      ∃ s, sdStamp (softDeleteFieldUpdater .timeT 5 (sdZero .timeT)) = some s ∧ 3 ≤ s) :=
  ⟨by decide, c9_soft_delete .timeT 5 3 (by decide) (by decide)⟩

/-! ## C1 -/

/-- C1 counterexample: in the Author/Book scenario the belongs-to
relation's `BaseFields` is not `[Book.AuthorID]` (the code takes the
owner's primary keys, so it is `[Book.ID]`). -/
theorem c1_counterexample :
    (belongsToRelation gAuthorBook bookTable bookAuthorField).map
        (fun r => r.baseFields) ≠ some [bookAuthorIDField] ∧
    (belongsToRelation gAuthorBook bookTable bookAuthorField).isSome = true := by
  constructor
  · intro h
    revert h
    decide
  · decide

/-- C1 amended: the Book/Author belongs-to relation resolves with
`BaseFields = [Book.ID]` (the owner's primary key) and
`JoinFields = [Author.ID]`, kind belongs-to. -/
theorem c1_amended :
    belongsToRelation gAuthorBook bookTable bookAuthorField = some bookAuthorRel ∧
    bookAuthorRel.rtype = .belongsTo ∧
    bookAuthorRel.baseFields = [bookIDField] ∧
    bookAuthorRel.joinFields = [authorIDField] := by
  refine ⟨?_, rfl, rfl, rfl⟩
  decide

/-! ## C4 counterexample -/

/-- C4 counterexample: a polymorphic has-many relation whose explicit
join list consists only of the `type=kind` discriminator pair completes
construction with empty `BaseFields`/`JoinFields`, so the length is not
strictly positive. -/
theorem c4_counterexample :
    (hasManyRelation gOwnerItem ownerTable ownerItemsField).isSome = true ∧
    (hasManyRelation gOwnerItem ownerTable ownerItemsField).map
        (fun r => (r.baseFields.length, r.joinFields.length)) = some (0, 0) := by
  constructor
  · decide
  · decide

/-! ## C6 -/

/-- C6 counterexample: a second discovery of the column name `x`
through a different access path is not a no-op: the Field registered
under `x` changes. -/
theorem c6_counterexample :
    fieldWithLock dupTable "x" = some dupXField ∧
    dupYField.name = "x" ∧
    dupYField.index ≠ dupXField.index ∧
    fieldWithLock (discover dupTable dupYField) "x" = some dupYField ∧
    dupYField ≠ dupXField := by
  refine ⟨by decide, by decide, by decide, by decide, by decide⟩

/-- C6 amended: a second discovery of an already-registered column name
leaves the registered Field unchanged exactly when the access path is
identical; a different access path replaces the registered Field. -/
theorem c6_amended (t : Table) (nf field : Field)
    (h : fieldWithLock t nf.name = some field) :
    (field.index = nf.index → fieldWithLock (discover t nf) nf.name = some field) ∧
    (field.index ≠ nf.index → fieldWithLock (discover t nf) nf.name = some nf) := by
  have h' : t.fieldMap.lookup nf.name = some field := h
  constructor
  · intro hidx
    have hdedup : newFieldDedup t nf = (t, field) := by
      unfold newFieldDedup
      rw [h]
      show (if field.index = nf.index then (t, field)
        else (t.removeField field, nf)) = (t, field)
      rw [if_pos hidx]
    show ((newFieldDedup t nf).1.addField (newFieldDedup t nf).2).fieldMap.lookup
      nf.name = some field
    rw [hdedup]
    show (mapSet t.fieldMap field.name field).lookup nf.name = some field
    by_cases hn : field.name = nf.name
    · rw [hn]
      exact lookup_mapSet_self _ _ _
    · rw [mapSet, List.lookup_cons,
        beq_eq_false_iff_ne.mpr (fun hx => hn hx.symm)]
      rw [lookup_filter_ne _ _ _ (fun hx => hn hx.symm)]
      exact h'
  · intro hidx
    have hdedup : newFieldDedup t nf = (t.removeField field, nf) := by
      unfold newFieldDedup
      rw [h]
      show (if field.index = nf.index then (t, field)
        else (t.removeField field, nf)) = (t.removeField field, nf)
      rw [if_neg hidx]
    show ((newFieldDedup t nf).1.addField (newFieldDedup t nf).2).fieldMap.lookup
      nf.name = some nf
    rw [hdedup]
    exact lookup_mapSet_self _ _ _

/-- Witness for C6 amended: re-discovering `x` through the identical
access path keeps the registered Field. -/
theorem c6_amended_witness :
    (fieldWithLock dupTable dupXField.name = some dupXField) ∧
    ((dupXField.index = dupXField.index →
        fieldWithLock (discover dupTable dupXField) dupXField.name = some dupXField) ∧
     (dupXField.index ≠ dupXField.index →
        fieldWithLock (discover dupTable dupXField) dupXField.name = some dupXField)) :=
  ⟨by decide, c6_amended dupTable dupXField dupXField (by decide)⟩

/-! ## C7 -/

/-- C7: registering a column name that is already registered returns the
existing Field unchanged (creating nothing) when the access path is
identical; when the path differs, the prior Field is removed from
`Fields`, from `PKs`/`DataFields`, and from the field map, and the new
Field takes its place. -/
theorem c7_duplicate_columns (t : Table) (nf field : Field)
    (h : fieldWithLock t nf.name = some field)
    (hfc : t.fields.count field ≤ 1)
    (hside : (if field.isPK then t.pks else t.dataFields).count field ≤ 1)
    (hother : field ∉ (if field.isPK then t.dataFields else t.pks)) :
    (field.index = nf.index → newFieldDedup t nf = (t, field)) ∧
    (field.index ≠ nf.index →
      newFieldDedup t nf = (t.removeField field, nf) ∧
      field ∉ (t.removeField field).fields ∧
      field ∉ (t.removeField field).pks ∧
      field ∉ (t.removeField field).dataFields ∧
      (t.removeField field).fieldMap.lookup field.name = none ∧
      fieldWithLock (discover t nf) nf.name = some nf) := by
  constructor
  · intro hidx
    unfold newFieldDedup
    rw [h]
    show (if field.index = nf.index then (t, field)
      else (t.removeField field, nf)) = (t, field)
    rw [if_pos hidx]
  · intro hidx
    have hdedup : newFieldDedup t nf = (t.removeField field, nf) := by
      unfold newFieldDedup
      rw [h]
      show (if field.index = nf.index then (t, field)
        else (t.removeField field, nf)) = (t.removeField field, nf)
      rw [if_neg hidx]
    refine ⟨hdedup, ?_, ?_, ?_, ?_, ?_⟩
    · show field ∉ removeFieldL t.fields field
      exact not_mem_removeFieldL_of_count t.fields field hfc
    · by_cases hpk : field.isPK
      · rw [if_pos hpk] at hside
        show field ∉ (if field.isPK then removeFieldL t.pks field else t.pks)
        rw [if_pos hpk]
        exact not_mem_removeFieldL_of_count t.pks field hside
      · rw [if_neg hpk] at hother
        show field ∉ (if field.isPK then removeFieldL t.pks field else t.pks)
        rw [if_neg hpk]
        exact hother
    · by_cases hpk : field.isPK
      · rw [if_pos hpk] at hother
        show field ∉ (if field.isPK then t.dataFields else removeFieldL t.dataFields field)
        rw [if_pos hpk]
        exact hother
      · rw [if_neg hpk] at hside
        show field ∉ (if field.isPK then t.dataFields else removeFieldL t.dataFields field)
        rw [if_neg hpk]
        exact not_mem_removeFieldL_of_count t.dataFields field hside
    · show (mapErase t.fieldMap field.name).lookup field.name = none
      exact lookup_filter_self _ _
    · show ((newFieldDedup t nf).1.addField (newFieldDedup t nf).2).fieldMap.lookup
        nf.name = some nf
      rw [hdedup]
      exact lookup_mapSet_self _ _ _

/-- Witness for C7 at a concrete different-path re-registration. -/
theorem c7_duplicate_columns_witness :
    (fieldWithLock dupTable dupYField.name = some dupXField ∧
      dupTable.fields.count dupXField ≤ 1 ∧
      (if dupXField.isPK then dupTable.pks else dupTable.dataFields).count dupXField ≤ 1 ∧
      dupXField ∉ (if dupXField.isPK then dupTable.dataFields else dupTable.pks)) ∧
    ((dupXField.index = dupYField.index → newFieldDedup dupTable dupYField = (dupTable, dupXField)) ∧
     (dupXField.index ≠ dupYField.index →
        newFieldDedup dupTable dupYField = (dupTable.removeField dupXField, dupYField) ∧
        dupXField ∉ (dupTable.removeField dupXField).fields ∧
        dupXField ∉ (dupTable.removeField dupXField).pks ∧
        dupXField ∉ (dupTable.removeField dupXField).dataFields ∧
        (dupTable.removeField dupXField).fieldMap.lookup dupXField.name = none ∧
        fieldWithLock (discover dupTable dupYField) dupYField.name = some dupYField)) :=
  ⟨⟨by decide, by decide, by decide, by decide⟩,
    c7_duplicate_columns dupTable dupYField dupXField (by decide) (by decide)
      (by decide) (by decide)⟩

/-! ## C3 -/

/-- C3: when no field was explicitly tagged as primary key, and the
field map holds a field under one of the conventional names (`id`,
`uuid`, `pk_<model>`, tried in that order), the first match becomes the
sole primary key, is removed from `DataFields`, and is marked
auto-increment. -/
theorem c3_pk_fallback (t : Table) (f : Field)
    (hnopk : t.pks = [])
    (hfound : firstFallbackField t (pkFallbackNames t) = some f)
    (hpk : f.isPK = false)
    (hcount : t.dataFields.count f ≤ 1)
    (hname : ∀ d ∈ t.dataFields, d.name = f.name → d = f) :
    (initFieldsFallback t).pks = [{ f with isPK := true, autoIncrement := true }] ∧
    f ∉ (initFieldsFallback t).dataFields ∧
    ({ f with isPK := true, autoIncrement := true } : Field) ∉
      (initFieldsFallback t).dataFields := by
  have h0 : ¬0 < t.pks.length := by
    rw [hnopk]
    simp
  have hstep : initFieldsFallback t = setAutoIncrement (setFallbackPK t f) := by
    unfold initFieldsFallback
    rw [if_neg h0, hfound]
    rfl
  have hpks : (initFieldsFallback t).pks
      = [{ f with isPK := true, autoIncrement := true }] := by
    rw [hstep]
    rfl
  have hdf : (initFieldsFallback t).dataFields
      = substField (markAsPK f) { f with isPK := true, autoIncrement := true }
          (removeFieldL (substField f (markAsPK f) t.dataFields) (markAsPK f)) := by
    rw [hstep]
    rfl
  have hfne1 : f ≠ markAsPK f := by
    intro hx
    have hx' := congrArg Field.isPK hx
    rw [hpk] at hx'
    simp [markAsPK] at hx'
  have hfne2 : f ≠ ({ f with isPK := true, autoIncrement := true } : Field) := by
    intro hx
    have hx' := congrArg Field.isPK hx
    rw [hpk] at hx'
    simp at hx'
  have hnotmem1 : markAsPK f ∉ t.dataFields := by
    intro hmem
    exact hfne1 (hname _ hmem rfl).symm
  have hcnt1 : (substField f (markAsPK f) t.dataFields).count (markAsPK f) ≤ 1 := by
    rw [count_substField_target t.dataFields f (markAsPK f) hnotmem1]
    exact hcount
  have hD2 : markAsPK f ∉
      removeFieldL (substField f (markAsPK f) t.dataFields) (markAsPK f) :=
    not_mem_removeFieldL_of_count _ _ hcnt1
  have hfD1 : f ∉ substField f (markAsPK f) t.dataFields :=
    not_mem_substField _ _ _ hfne1
  have hfD2 : f ∉ removeFieldL (substField f (markAsPK f) t.dataFields) (markAsPK f) :=
    fun hmem => hfD1 (mem_removeFieldL _ _ _ hmem)
  have hD3 : substField (markAsPK f) { f with isPK := true, autoIncrement := true }
      (removeFieldL (substField f (markAsPK f) t.dataFields) (markAsPK f))
      = removeFieldL (substField f (markAsPK f) t.dataFields) (markAsPK f) :=
    substField_eq_of_not_mem _ _ _ hD2
  refine ⟨hpks, ?_, ?_⟩
  · rw [hdf, hD3]
    exact hfD2
  · rw [hdf, hD3]
    intro hmem
    by_cases hff : ({ f with isPK := true, autoIncrement := true } : Field) = markAsPK f
    · exact hD2 (hff ▸ hmem)
    · have hmem1 := mem_removeFieldL _ _ _ hmem
      have hmem0 := mem_of_mem_substField _ _ _ _ hff hmem1
      exact hfne2 (hname _ hmem0 rfl).symm

/-- Witness for C3: a table with no explicit primary key and a data
field named `id`. -/
theorem c3_pk_fallback_witness :
    (userTable.pks = [] ∧
      firstFallbackField userTable (pkFallbackNames userTable) = some userIDField ∧
      userIDField.isPK = false ∧
      userTable.dataFields.count userIDField ≤ 1 ∧
      (∀ d ∈ userTable.dataFields, d.name = userIDField.name → d = userIDField)) ∧
    ((initFieldsFallback userTable).pks
        = [{ userIDField with isPK := true, autoIncrement := true }] ∧
      userIDField ∉ (initFieldsFallback userTable).dataFields ∧
      ({ userIDField with isPK := true, autoIncrement := true } : Field) ∉
        (initFieldsFallback userTable).dataFields) :=
  ⟨⟨by decide, by decide, by decide, by decide, by decide⟩,
    c3_pk_fallback userTable userIDField (by decide) (by decide) (by decide)
      (by decide) (by decide)⟩

/-! ## C2 -/

theorem resolveList_none_of_mem (f : Field → Option Field) (l : List Field)
    (pk : Field) (hm : pk ∈ l) (hn : f pk = none) : resolveList f l = none := by
  induction l with
  | nil => cases hm
  | cons x xs ih =>
    rcases List.mem_cons.mp hm with h | h
    · subst h
      rw [resolveList, hn]
    · rw [resolveList]
      cases hx : f x with
      | none => rfl
      | some fx => rw [ih h]

theorem resolveList_length (f : Field → Option Field) :
    ∀ l l', resolveList f l = some l' → l'.length = l.length := by
  intro l
  induction l with
  | nil =>
    intro l' h
    rw [resolveList] at h
    cases h
    rfl
  | cons x xs ih =>
    intro l' h
    rw [resolveList] at h
    cases hx : f x with
    | none =>
      rw [hx] at h
      cases h
    | some fx =>
      rw [hx] at h
      cases hr : resolveList f xs with
      | none =>
        rw [hr] at h
        cases h
      | some fks =>
        rw [hr] at h
        cases h
        simp [ih fks hr]

/-- C2: for has-one, belongs-to and has-many relations without an
explicit join tag, convention resolution tries, for each primary key of
the required side, the `<prefix>_<pk>` column first and the bare `<pk>`
column only when the former is absent; a primary key for which neither
exists aborts the construction, and a completed construction carries
exactly the conventionally resolved columns. -/
theorem c2_convention (k : RelKind) (g : List Table) (t jt : Table) (field : Field)
    (hk : k = .hasOne ∨ k = .belongsTo ∨ k = .hasMany)
    (hjoin : field.tag.join = none)
    (href : refTable g (convTargetTyp k field) = some jt) :
    ((∃ pk ∈ convPKs k t jt,
        resolveFK (convSearched k t jt) (convPref k t field) pk = none) →
      convRelation k g t field = none) ∧
    (∀ rel, convRelation k g t field = some rel →
      resolveList (resolveFK (convSearched k t jt) (convPref k t field))
        (convPKs k t jt) = some (convResolved k rel)) ∧
    (∀ pk fk,
      fieldWithLock (convSearched k t jt) (convPref k t field ++ pk.name) = some fk →
      resolveFK (convSearched k t jt) (convPref k t field) pk = some fk) ∧
    (∀ pk,
      fieldWithLock (convSearched k t jt) (convPref k t field ++ pk.name) = none →
      resolveFK (convSearched k t jt) (convPref k t field) pk
        = fieldWithLock (convSearched k t jt) pk.name) := by
  have hfk1 : ∀ pk fk,
      fieldWithLock (convSearched k t jt) (convPref k t field ++ pk.name) = some fk →
      resolveFK (convSearched k t jt) (convPref k t field) pk = some fk := by
    intro pk fk h
    unfold resolveFK
    rw [h]
  have hfk2 : ∀ pk,
      fieldWithLock (convSearched k t jt) (convPref k t field ++ pk.name) = none →
      resolveFK (convSearched k t jt) (convPref k t field) pk
        = fieldWithLock (convSearched k t jt) pk.name := by
    intro pk h
    unfold resolveFK
    rw [h]
  refine ⟨?_, ?_, hfk1, hfk2⟩
  · rintro ⟨pk, hpk, hfail⟩
    rcases hk with rfl | rfl | rfl
    · simp only [convSearched, convPref, convPKs] at hpk hfail
      have hnone := resolveList_none_of_mem _ _ pk hpk hfail
      simp only [convTargetTyp] at href
      simp only [convRelation, hasOneRelation, href, hjoin]
      by_cases hl : jt.pks.length = 0
      · simp [checkPKsOpt, hl]
      · simp [checkPKsOpt, hl, hnone]
    · simp only [convSearched, convPref, convPKs] at hpk hfail
      have hnone := resolveList_none_of_mem _ _ pk hpk hfail
      simp only [convTargetTyp] at href
      simp only [convRelation, belongsToRelation, href, hjoin]
      by_cases hl : t.pks.length = 0
      · simp [checkPKsOpt, hl]
      · simp [checkPKsOpt, hl, hnone]
    · simp only [convSearched, convPref, convPKs] at hpk hfail
      have hnone := resolveList_none_of_mem _ _ pk hpk hfail
      simp only [convTargetTyp] at href
      simp only [convRelation, hasManyRelation, href, hjoin]
      by_cases hl : t.pks.length = 0
      · simp [checkPKsOpt, hl]
      · by_cases hkind : field.kind = TKind.slice
        · simp [checkPKsOpt, hl, hkind, hnone]
        · simp [checkPKsOpt, hl, hkind]
  · intro rel hrel
    rcases hk with rfl | rfl | rfl
    · simp only [convSearched, convPref, convPKs, convResolved]
      simp only [convTargetTyp] at href
      simp only [convRelation, hasOneRelation, href, hjoin] at hrel
      by_cases hl : jt.pks.length = 0
      · simp [checkPKsOpt, hl] at hrel
      · simp only [checkPKsOpt, if_neg hl] at hrel
        cases hres : resolveList (resolveFK t (underscore field.goName ++ "_")) jt.pks with
        | none => simp [hres] at hrel
        | some bs =>
          rw [hres, Option.some_inj] at hrel
          subst hrel
          rfl
    · simp only [convSearched, convPref, convPKs, convResolved]
      simp only [convTargetTyp] at href
      simp only [convRelation, belongsToRelation, href, hjoin] at hrel
      by_cases hl : t.pks.length = 0
      · simp [checkPKsOpt, hl] at hrel
      · simp only [checkPKsOpt, if_neg hl] at hrel
        cases hres : resolveList (resolveFK jt (underscore t.modelName ++ "_")) t.pks with
        | none => simp [hres] at hrel
        | some js =>
          rw [hres, Option.some_inj] at hrel
          subst hrel
          rfl
    · simp only [convSearched, convPref, convPKs, convResolved]
      simp only [convTargetTyp] at href
      simp only [convRelation, hasManyRelation, href, hjoin] at hrel
      by_cases hl : t.pks.length = 0
      · simp [checkPKsOpt, hl] at hrel
      · by_cases hkind : field.kind = TKind.slice
        · simp only [checkPKsOpt, if_neg hl] at hrel
          rw [if_neg (by simp [hkind])] at hrel
          cases hres : resolveList (resolveFK jt (underscore t.modelName ++ "_")) t.pks with
          | none => simp [hres] at hrel
          | some js =>
            cases hpoly : field.tag.polymorphic.isSome with
            | false =>
              simp [hres, hpoly] at hrel
              subst hrel
              rfl
            | true =>
              simp only [hres, hpoly, if_true, Option.getD_some] at hrel
              cases hpf : fieldWithLock jt (underscore t.modelName ++ "_" ++ "type") with
              | none => simp [hpf] at hrel
              | some pf =>
                rw [hpf] at hrel
                simp at hrel
                subst hrel
                rfl
        · simp [checkPKsOpt, hl, hkind] at hrel

/-- Witness for C2: the has-one convention on the Book/Author tables
(the prefixed column `author_id` exists and is preferred). -/
theorem c2_convention_witness :
    ((RelKind.hasOne = RelKind.hasOne ∨ RelKind.hasOne = RelKind.belongsTo ∨
        RelKind.hasOne = RelKind.hasMany) ∧
      bookAuthorHasOneField.tag.join = none ∧
      refTable gAuthorBook (convTargetTyp .hasOne bookAuthorHasOneField)
        = some authorTable) ∧
    (((∃ pk ∈ convPKs .hasOne bookTable authorTable,
        resolveFK (convSearched .hasOne bookTable authorTable)
          (convPref .hasOne bookTable bookAuthorHasOneField) pk = none) →
      convRelation .hasOne gAuthorBook bookTable bookAuthorHasOneField = none) ∧
    (∀ rel,
      convRelation .hasOne gAuthorBook bookTable bookAuthorHasOneField = some rel →
      resolveList
        (resolveFK (convSearched .hasOne bookTable authorTable)
          (convPref .hasOne bookTable bookAuthorHasOneField))
        (convPKs .hasOne bookTable authorTable) = some (convResolved .hasOne rel)) ∧
    (∀ pk fk,
      fieldWithLock (convSearched .hasOne bookTable authorTable)
          (convPref .hasOne bookTable bookAuthorHasOneField ++ pk.name) = some fk →
      resolveFK (convSearched .hasOne bookTable authorTable)
        (convPref .hasOne bookTable bookAuthorHasOneField) pk = some fk) ∧
    (∀ pk,
      fieldWithLock (convSearched .hasOne bookTable authorTable)
          (convPref .hasOne bookTable bookAuthorHasOneField ++ pk.name) = none →
      resolveFK (convSearched .hasOne bookTable authorTable)
        (convPref .hasOne bookTable bookAuthorHasOneField) pk
        = fieldWithLock (convSearched .hasOne bookTable authorTable) pk.name)) :=
  ⟨⟨Or.inl rfl, by decide, by decide⟩,
    c2_convention .hasOne gAuthorBook bookTable authorTable bookAuthorHasOneField
      (Or.inl rfl) (by decide) (by decide)⟩

/-! ## C4 and C5: length invariants of the four relation kinds -/

theorem splitOnChar_ne_nil (c : Char) (l : List Char) : splitOnChar c l ≠ [] := by
  cases l with
  | nil => simp [splitOnChar]
  | cons x xs =>
    by_cases hxc : x = c
    · simp [splitOnChar, hxc]
    · simp only [splitOnChar, if_neg hxc]
      cases hr : splitOnChar c xs <;> simp

theorem goSplit_ne_nil (sep : Char) (s : String) : goSplit sep s ≠ [] := by
  unfold goSplit
  intro h
  exact splitOnChar_ne_nil sep s.toList (List.map_eq_nil_iff.mp h)

theorem parsePairList_length :
    ∀ ss ps, parsePairList ss = some ps → ps.length = ss.length := by
  intro ss
  induction ss with
  | nil =>
    intro ps h
    rw [parsePairList] at h
    cases h
    rfl
  | cons s rest ih =>
    intro ps h
    rw [parsePairList] at h
    cases hp : parseJoinPair s with
    | none => rw [hp] at h; cases h
    | some p =>
      rw [hp] at h
      cases hr : parsePairList rest with
      | none => rw [hr] at h; cases h
      | some ps' =>
        rw [hr] at h
        cases h
        simp [ih ps' hr]

theorem parseRelationJoin_ne_nil (join : String) (pairs : List (String × String))
    (h : parseRelationJoin join = some pairs) : pairs ≠ [] := by
  intro hnil
  subst hnil
  have hlen := parsePairList_length (goSplit ',' join) [] h
  have hne := goSplit_ne_nil ',' join
  cases hg : goSplit ',' join with
  | nil => exact hne hg
  | cons a as =>
    rw [hg] at hlen
    simp at hlen

theorem resolvePairs_lengths (base join : Table) :
    ∀ pairs bs js, resolvePairs base join pairs = some (bs, js) →
      bs.length = pairs.length ∧ js.length = pairs.length := by
  intro pairs
  induction pairs with
  | nil =>
    intro bs js h
    rw [resolvePairs] at h
    simp only [Option.some_inj, Prod.mk.injEq] at h
    obtain ⟨e1, e2⟩ := h
    subst e1
    subst e2
    exact ⟨rfl, rfl⟩
  | cons p rest ih =>
    intro bs js h
    rcases p with ⟨b, j⟩
    rw [resolvePairs] at h
    cases hb : fieldWithLock base b with
    | none => simp only [hb] at h; cases h
    | some bf =>
      simp only [hb] at h
      cases hj : fieldWithLock join j with
      | none => simp only [hj] at h; cases h
      | some jf =>
        simp only [hj] at h
        cases hr : resolvePairs base join rest with
        | none => simp only [hr] at h; cases h
        | some bsjs =>
          obtain ⟨bs1, js1⟩ := bsjs
          simp only [hr, Option.some_inj, Prod.mk.injEq] at h
          obtain ⟨e1, e2⟩ := h
          subst e1
          subst e2
          obtain ⟨h1, h2⟩ := ih bs1 js1 hr
          simp [h1, h2]

theorem hasManyPairsLoop_spec (t join : Table) (isPoly : Bool) :
    ∀ pairs bs js pc, hasManyPairsLoop t join isPoly pairs = some (bs, js, pc) →
      bs.length = js.length ∧
      (bs = [] → ∀ p ∈ pairs, isPoly = true ∧ p.1 = "type") := by
  intro pairs
  induction pairs with
  | nil =>
    intro bs js pc h
    rw [hasManyPairsLoop] at h
    simp only [Option.some_inj, Prod.mk.injEq] at h
    obtain ⟨e1, e2, e3⟩ := h
    subst e1
    subst e2
    exact ⟨rfl, fun _ p hp => absurd hp (List.not_mem_nil p)⟩
  | cons p rest ih =>
    intro bs js pc h
    rcases p with ⟨b, j⟩
    rw [hasManyPairsLoop] at h
    by_cases hskip : isPoly = true ∧ b = "type"
    · rw [if_pos hskip] at h
      cases hr : hasManyPairsLoop t join isPoly rest with
      | none => simp only [hr] at h; cases h
      | some r =>
        obtain ⟨bs1, js1, pc1⟩ := r
        simp only [hr, Option.some_inj, Prod.mk.injEq] at h
        obtain ⟨e1, e2, e3⟩ := h
        subst e1
        subst e2
        obtain ⟨h1, h2⟩ := ih bs1 js1 pc1 hr
        refine ⟨h1, fun hb p hp => ?_⟩
        rcases List.mem_cons.mp hp with hpe | hpm
        · subst hpe
          exact hskip
        · exact h2 hb p hpm
    · rw [if_neg hskip] at h
      cases hb : fieldWithLock t b with
      | none => simp only [hb] at h; cases h
      | some bf =>
        simp only [hb] at h
        cases hj : fieldWithLock join j with
        | none => simp only [hj] at h; cases h
        | some jf =>
          simp only [hj] at h
          cases hr : hasManyPairsLoop t join isPoly rest with
          | none => simp only [hr] at h; cases h
          | some r =>
            obtain ⟨bs1, js1, pc1⟩ := r
            simp only [hr, Option.some_inj, Prod.mk.injEq] at h
            obtain ⟨e1, e2, e3⟩ := h
            subst e1
            subst e2
            obtain ⟨h1, _⟩ := ih bs1 js1 pc1 hr
            refine ⟨by simp [h1], fun hb' => ?_⟩
            cases hb'

theorem hasOne_ok (g : List Table) (t : Table) (field : Field) (rel : Relation)
    (h : hasOneRelation g t field = some rel) :
    rel.baseFields.length = rel.joinFields.length ∧ 0 < rel.baseFields.length := by
  unfold hasOneRelation at h
  cases href : refTable g field.typ with
  | none => simp only [href] at h; cases h
  | some jt =>
    simp only [href] at h
    cases hc : checkPKsOpt jt with
    | none => simp only [hc] at h; cases h
    | some u =>
      simp only [hc] at h
      have hpks : 0 < jt.pks.length := by
        unfold checkPKsOpt at hc
        by_cases h0 : jt.pks.length = 0
        · rw [if_pos h0] at hc; cases hc
        · omega
      cases hjt : field.tag.join with
      | some join =>
        simp only [hjt] at h
        cases hpj : parseRelationJoin join with
        | none => simp only [hpj] at h; cases h
        | some pairs =>
          simp only [hpj] at h
          cases hrp : resolvePairs t jt pairs with
          | none => simp only [hrp] at h; cases h
          | some bsjs =>
            obtain ⟨bs, js⟩ := bsjs
            simp only [hrp, Option.some_inj] at h
            subst h
            obtain ⟨h1, h2⟩ := resolvePairs_lengths t jt pairs bs js hrp
            constructor
            · show bs.length = js.length
              rw [h1, h2]
            · show 0 < bs.length
              rw [h1]
              exact List.length_pos.mpr (parseRelationJoin_ne_nil join pairs hpj)
      | none =>
        simp only [hjt] at h
        cases hrl : resolveList (resolveFK t (underscore field.goName ++ "_")) jt.pks with
        | none => simp only [hrl] at h; cases h
        | some bs =>
          simp only [hrl, Option.some_inj] at h
          subst h
          have hlen := resolveList_length _ _ _ hrl
          constructor
          · show bs.length = jt.pks.length
            exact hlen
          · show 0 < bs.length
            rw [hlen]
            exact hpks

theorem belongsTo_ok (g : List Table) (t : Table) (field : Field) (rel : Relation)
    (h : belongsToRelation g t field = some rel) :
    rel.baseFields.length = rel.joinFields.length ∧ 0 < rel.baseFields.length := by
  unfold belongsToRelation at h
  cases hc : checkPKsOpt t with
  | none => simp only [hc] at h; cases h
  | some u =>
    simp only [hc] at h
    have hpks : 0 < t.pks.length := by
      unfold checkPKsOpt at hc
      by_cases h0 : t.pks.length = 0
      · rw [if_pos h0] at hc; cases hc
      · omega
    cases href : refTable g field.typ with
    | none => simp only [href] at h; cases h
    | some jt =>
      simp only [href] at h
      cases hjt : field.tag.join with
      | some join =>
        simp only [hjt] at h
        cases hpj : parseRelationJoin join with
        | none => simp only [hpj] at h; cases h
        | some pairs =>
          simp only [hpj] at h
          cases hrp : resolvePairs t jt pairs with
          | none => simp only [hrp] at h; cases h
          | some bsjs =>
            obtain ⟨bs, js⟩ := bsjs
            simp only [hrp, Option.some_inj] at h
            subst h
            obtain ⟨h1, h2⟩ := resolvePairs_lengths t jt pairs bs js hrp
            constructor
            · show bs.length = js.length
              rw [h1, h2]
            · show 0 < bs.length
              rw [h1]
              exact List.length_pos.mpr (parseRelationJoin_ne_nil join pairs hpj)
      | none =>
        simp only [hjt] at h
        cases hrl : resolveList (resolveFK jt (underscore t.modelName ++ "_")) t.pks with
        | none => simp only [hrl] at h; cases h
        | some js =>
          simp only [hrl, Option.some_inj] at h
          subst h
          have hlen := resolveList_length _ _ _ hrl
          constructor
          · show t.pks.length = js.length
            rw [hlen]
          · show 0 < t.pks.length
            exact hpks

theorem hasMany_ok (g : List Table) (t : Table) (field : Field) (rel : Relation)
    (h : hasManyRelation g t field = some rel) :
    rel.baseFields.length = rel.joinFields.length ∧
    (0 < rel.baseFields.length ∨ polyDegenerate field) := by
  unfold hasManyRelation at h
  cases hc : checkPKsOpt t with
  | none => simp only [hc] at h; cases h
  | some u =>
    simp only [hc] at h
    have hpks : 0 < t.pks.length := by
      unfold checkPKsOpt at hc
      by_cases h0 : t.pks.length = 0
      · rw [if_pos h0] at hc; cases hc
      · omega
    by_cases hkind : field.kind = TKind.slice
    case neg =>
      rw [if_pos hkind] at h
      cases h
    case pos =>
      rw [if_neg (by simp [hkind])] at h
      cases href : refTable g field.elemTyp with
      | none => simp only [href] at h; cases h
      | some jt =>
        simp only [href] at h
        cases hjt : field.tag.join with
        | some join =>
          simp only [hjt] at h
          cases hpj : parseRelationJoin join with
          | none => simp only [hpj] at h; cases h
          | some pairs =>
            simp only [hpj] at h
            cases hml : hasManyPairsLoop t jt field.tag.polymorphic.isSome pairs with
            | none => simp only [hml] at h; cases h
            | some r =>
              obtain ⟨bs, js, pc⟩ := r
              simp only [hml] at h
              obtain ⟨hlen, hempty⟩ :=
                hasManyPairsLoop_spec t jt field.tag.polymorphic.isSome pairs bs js pc hml
              by_cases hpoly : field.tag.polymorphic.isSome = true
              · simp only [if_pos hpoly] at h
                cases hpf : fieldWithLock jt (pc.getD "") with
                | none => simp only [hpf] at h; cases h
                | some pf =>
                  simp only [hpf, Option.some_inj] at h
                  subst h
                  refine ⟨hlen, ?_⟩
                  by_cases hbs : bs = []
                  · exact Or.inr ⟨hpoly, join, pairs, hjt, hpj,
                      fun p hp => (hempty hbs p hp).2⟩
                  · exact Or.inl (List.length_pos.mpr hbs)
              · simp only [if_neg hpoly, Option.some_inj] at h
                subst h
                refine ⟨hlen, ?_⟩
                by_cases hbs : bs = []
                · exfalso
                  have hne := parseRelationJoin_ne_nil join pairs hpj
                  obtain ⟨p, hp⟩ := List.exists_mem_of_ne_nil pairs hne
                  exact hpoly (hempty hbs p hp).1
                · exact Or.inl (List.length_pos.mpr hbs)
        | none =>
          simp only [hjt] at h
          cases hrl : resolveList (resolveFK jt (underscore t.modelName ++ "_")) t.pks with
          | none => simp only [hrl] at h; cases h
          | some js =>
            simp only [hrl] at h
            by_cases hpoly : field.tag.polymorphic.isSome = true
            · simp only [if_pos hpoly, Option.getD_some] at h
              cases hpf : fieldWithLock jt (underscore t.modelName ++ "_" ++ "type") with
              | none => simp only [hpf] at h; cases h
              | some pf =>
                simp only [hpf, Option.some_inj] at h
                subst h
                have hlen := resolveList_length _ _ _ hrl
                exact ⟨hlen.symm, Or.inl hpks⟩
            · simp only [if_neg hpoly, Option.some_inj] at h
              subst h
              have hlen := resolveList_length _ _ _ hrl
              exact ⟨hlen.symm, Or.inl hpks⟩

theorem m2m_parts (g : List Table) (t : Table) (field : Field) (rel : Relation)
    (h : m2mRelation g t field = some rel) :
    ∃ m2mTable leftField rightField leftRel rightRel,
      byNameTable g (field.tag.m2m.getD "") = some m2mTable ∧
      hasOneRelation g m2mTable leftField = some leftRel ∧
      hasOneRelation g m2mTable rightField = some rightRel ∧
      rel.m2mTableTyp = m2mTable.typ ∧
      rel.baseFields = leftRel.joinFields ∧
      rel.m2mBaseFields = leftRel.baseFields ∧
      rel.joinFields = rightRel.joinFields ∧
      rel.m2mJoinFields = rightRel.baseFields := by
  unfold m2mRelation at h
  by_cases hkind : field.kind = TKind.slice
  case neg =>
    rw [if_pos hkind] at h
    cases h
  case pos =>
    rw [if_neg (by simp [hkind])] at h
    cases href : refTable g field.elemTyp with
    | none => simp only [href] at h; cases h
    | some jt =>
      simp only [href] at h
      cases hc1 : checkPKsOpt t with
      | none => simp only [hc1] at h; cases h
      | some u1 =>
        simp only [hc1] at h
        cases hc2 : checkPKsOpt jt with
        | none => simp only [hc2] at h; cases h
        | some u2 =>
          simp only [hc2] at h
          cases hm : field.tag.m2m with
          | none => simp only [hm] at h; cases h
          | some m2mName =>
            simp only [hm] at h
            cases hbn : byNameTable g m2mName with
            | none => simp only [hbn] at h; cases h
            | some m2mTable =>
              simp only [hbn] at h
              cases hjt : field.tag.join with
              | some join =>
                simp only [hjt] at h
                cases hpj : parseRelationJoin join with
                | none => simp only [hpj] at h; cases h
                | some pairs =>
                  simp only [hpj] at h
                  cases pairs with
                  | nil => cases h
                  | cons p ps =>
                    cases hlf : fieldByGoName m2mTable p.1 with
                    | none => simp only [hlf] at h; cases h
                    | some leftField =>
                      simp only [hlf] at h
                      cases hrf : fieldByGoName m2mTable p.2 with
                      | none => simp only [hrf] at h; cases h
                      | some rightField =>
                        simp only [hrf] at h
                        cases hlr : hasOneRelation g m2mTable leftField with
                        | none => simp only [hlr] at h; cases h
                        | some leftRel =>
                          simp only [hlr] at h
                          cases hrr : hasOneRelation g m2mTable rightField with
                          | none => simp only [hrr] at h; cases h
                          | some rightRel =>
                            simp only [hrr, Option.some_inj] at h
                            subst h
                            exact ⟨m2mTable, leftField, rightField, leftRel,
                              rightRel, hbn, hlr, hrr, rfl, rfl, rfl, rfl, rfl⟩
              | none =>
                simp only [hjt] at h
                cases hlf : fieldByGoName m2mTable t.typeName with
                | none => simp only [hlf] at h; cases h
                | some leftField =>
                  simp only [hlf] at h
                  cases hrf : fieldByGoName m2mTable jt.typeName with
                  | none => simp only [hrf] at h; cases h
                  | some rightField =>
                    simp only [hrf] at h
                    cases hlr : hasOneRelation g m2mTable leftField with
                    | none => simp only [hlr] at h; cases h
                    | some leftRel =>
                      simp only [hlr] at h
                      cases hrr : hasOneRelation g m2mTable rightField with
                      | none => simp only [hrr] at h; cases h
                      | some rightRel =>
                        simp only [hrr, Option.some_inj] at h
                        subst h
                        exact ⟨m2mTable, leftField, rightField, leftRel,
                          rightRel, hbn, hlr, hrr, rfl, rfl, rfl, rfl, rfl⟩

/-- C4 amended: every completed has-one, belongs-to and non-degenerate
has-many relation has `BaseFields` and `JoinFields` of equal, strictly
positive length; a polymorphic has-many whose explicit join pairs are
all `type` discriminator pairs may be empty, and a completed
many-to-many relation has non-empty `BaseFields`/`JoinFields` whose
lengths match `M2MBaseFields`/`M2MJoinFields` respectively (but not
necessarily each other). -/
theorem c4_amended (k : RelKind) (g : List Table) (t : Table) (field : Field)
    (rel : Relation) (h : convRelation k g t field = some rel) :
    ((k = .hasOne ∨ k = .belongsTo) →
      rel.baseFields.length = rel.joinFields.length ∧ 0 < rel.baseFields.length) ∧
    (k = .hasMany →
      rel.baseFields.length = rel.joinFields.length ∧
      (0 < rel.baseFields.length ∨ polyDegenerate field)) ∧
    (k = .manyToMany →
      rel.baseFields.length = rel.m2mBaseFields.length ∧
      rel.joinFields.length = rel.m2mJoinFields.length ∧
      0 < rel.baseFields.length ∧ 0 < rel.joinFields.length) := by
  refine ⟨?_, ?_, ?_⟩
  · rintro (rfl | rfl)
    · exact hasOne_ok g t field rel h
    · exact belongsTo_ok g t field rel h
  · rintro rfl
    exact hasMany_ok g t field rel h
  · rintro rfl
    obtain ⟨mt, lF, rF, lRel, rRel, hbn, hlr, hrr, e0, e1, e2, e3, e4⟩ :=
      m2m_parts g t field rel h
    obtain ⟨hl1, hl2⟩ := hasOne_ok g mt lF lRel hlr
    obtain ⟨hr1, hr2⟩ := hasOne_ok g mt rF rRel hrr
    refine ⟨?_, ?_, ?_, ?_⟩
    · rw [e1, e2, hl1]
    · rw [e3, e4, hr1]
    · rw [e1, ← hl1]
      exact hl2
    · rw [e3, ← hr1]
      exact hr2

/-- Witness for C4 amended at the Book/Author belongs-to relation. -/
theorem c4_amended_witness :
    (convRelation .belongsTo gAuthorBook bookTable bookAuthorField
        = some bookAuthorRel) ∧
    (((RelKind.belongsTo = .hasOne ∨ RelKind.belongsTo = .belongsTo) →
        bookAuthorRel.baseFields.length = bookAuthorRel.joinFields.length ∧
        0 < bookAuthorRel.baseFields.length) ∧
      (RelKind.belongsTo = .hasMany →
        bookAuthorRel.baseFields.length = bookAuthorRel.joinFields.length ∧
        (0 < bookAuthorRel.baseFields.length ∨ polyDegenerate bookAuthorField)) ∧
      (RelKind.belongsTo = .manyToMany →
        bookAuthorRel.baseFields.length = bookAuthorRel.m2mBaseFields.length ∧
        bookAuthorRel.joinFields.length = bookAuthorRel.m2mJoinFields.length ∧
        0 < bookAuthorRel.baseFields.length ∧ 0 < bookAuthorRel.joinFields.length)) :=
  ⟨by decide,
    c4_amended .belongsTo gAuthorBook bookTable bookAuthorField bookAuthorRel
      (by decide)⟩

/-- C5: for every completed many-to-many relation, `BaseFields` matches
`M2MBaseFields` in length and `JoinFields` matches `M2MJoinFields`, all
four lists are non-empty, and the two sides come from running the
has-one algorithm against the junction table, once per declared side
field, with that run's join side becoming the relation side and its
base side becoming the junction side. -/
theorem c5_m2m (g : List Table) (t : Table) (field : Field) (rel : Relation)
    (h : m2mRelation g t field = some rel) :
    rel.baseFields.length = rel.m2mBaseFields.length ∧
    rel.joinFields.length = rel.m2mJoinFields.length ∧
    0 < rel.baseFields.length ∧ 0 < rel.joinFields.length ∧
    0 < rel.m2mBaseFields.length ∧ 0 < rel.m2mJoinFields.length ∧
    ∃ m2mTable leftField rightField leftRel rightRel,
      byNameTable g (field.tag.m2m.getD "") = some m2mTable ∧
      rel.m2mTableTyp = m2mTable.typ ∧
      hasOneRelation g m2mTable leftField = some leftRel ∧
      hasOneRelation g m2mTable rightField = some rightRel ∧
      rel.baseFields = leftRel.joinFields ∧
      rel.m2mBaseFields = leftRel.baseFields ∧
      rel.joinFields = rightRel.joinFields ∧
      rel.m2mJoinFields = rightRel.baseFields := by
  obtain ⟨mt, lF, rF, lRel, rRel, hbn, hlr, hrr, e0, e1, e2, e3, e4⟩ :=
    m2m_parts g t field rel h
  obtain ⟨hl1, hl2⟩ := hasOne_ok g mt lF lRel hlr
  obtain ⟨hr1, hr2⟩ := hasOne_ok g mt rF rRel hrr
  refine ⟨?_, ?_, ?_, ?_, ?_, ?_,
    mt, lF, rF, lRel, rRel, hbn, e0, hlr, hrr, e1, e2, e3, e4⟩
  · rw [e1, e2, hl1]
  · rw [e3, e4, hr1]
  · rw [e1, ← hl1]
    exact hl2
  · rw [e3, ← hr1]
    exact hr2
  · rw [e2]
    exact hl2
  · rw [e4]
    exact hr2

/-- Witness for C5 at the Post/Tag/post_tags scenario. -/
theorem c5_m2m_witness :
    (m2mRelation gPostTag postTable postTagsField = some postTagsRel) ∧
    (postTagsRel.baseFields.length = postTagsRel.m2mBaseFields.length ∧
      postTagsRel.joinFields.length = postTagsRel.m2mJoinFields.length ∧
      0 < postTagsRel.baseFields.length ∧ 0 < postTagsRel.joinFields.length ∧
      0 < postTagsRel.m2mBaseFields.length ∧ 0 < postTagsRel.m2mJoinFields.length ∧
      ∃ m2mTable leftField rightField leftRel rightRel,
        byNameTable gPostTag (postTagsField.tag.m2m.getD "") = some m2mTable ∧
        postTagsRel.m2mTableTyp = m2mTable.typ ∧
        hasOneRelation gPostTag m2mTable leftField = some leftRel ∧
        hasOneRelation gPostTag m2mTable rightField = some rightRel ∧
        postTagsRel.baseFields = leftRel.joinFields ∧
        postTagsRel.m2mBaseFields = leftRel.baseFields ∧
        postTagsRel.joinFields = rightRel.joinFields ∧
        postTagsRel.m2mJoinFields = rightRel.baseFields) :=
  ⟨by decide, c5_m2m gPostTag postTable postTagsField postTagsRel (by decide)⟩

/-! ## C8: the inliner terminates through its visited-type set -/

theorem refTable_typ_mem (g : List Table) (ty : Nat) (tb : Table)
    (h : refTable g ty = some tb) : ty ∈ typeSet g := by
  have hmem := List.mem_of_find?_eq_some h
  have hty : tb.typ = ty := by
    have := List.find?_some h
    simpa using this
  unfold typeSet regTypes
  rw [List.mem_toFinset]
  apply List.mem_append_left
  rw [← hty]
  exact List.mem_map_of_mem Table.typ hmem

theorem allFieldsOf_typ_mem (g : List Table) (ty : Nat) (f : Field)
    (h : f ∈ allFieldsOf g ty) : f.typ ∈ typeSet g := by
  unfold allFieldsOf at h
  cases hr : refTable g ty with
  | none => rw [hr] at h; cases h
  | some tb =>
    rw [hr] at h
    have hmem := List.mem_of_find?_eq_some hr
    unfold typeSet regTypes
    rw [List.mem_toFinset]
    apply List.mem_append_right
    rw [List.mem_flatMap]
    exact ⟨tb, hmem, List.mem_map_of_mem Field.typ h⟩

theorem newTypes_anti (g : List Table) (p q : List Nat) (h : p ⊆ q) :
    newTypes g q ≤ newTypes g p := by
  unfold newTypes
  apply Finset.card_le_card
  apply Finset.sdiff_subset_sdiff (le_refl _)
  intro x hx
  rw [List.mem_toFinset] at hx ⊢
  exact h hx

theorem inlineLoopF_path_mono
    (rec : Field → List (String × Field) → List Nat →
      List (String × Field) × List Nat)
    (hrec : ∀ f fm path, path ⊆ (rec f fm path).2) (strct : Field) :
    ∀ fs fm path, path ⊆ (inlineLoopF rec strct fs fm path).2 := by
  intro fs
  induction fs with
  | nil => intro fm path x hx; exact hx
  | cons f rest ih =>
    intro fm path
    simp only [inlineLoopF]
    by_cases hk : (cloneInto strct f).kind = TKind.struct'
    · by_cases hp : (cloneInto strct f).typ ∈ path
      · rw [if_pos hk, if_pos hp]
        exact ih _ _
      · rw [if_pos hk, if_neg hp]
        exact List.Subset.trans (hrec _ _ _) (ih _ _)
    · rw [if_neg hk]
      exact ih _ _

theorem inlineGo_path_mono :
    ∀ fuel g strct fm path, path ⊆ (inlineGo fuel g strct fm path).2 := by
  intro fuel
  induction fuel with
  | zero => intro g strct fm path x hx; exact hx
  | succ n ih =>
    intro g strct fm path
    simp only [inlineGo]
    by_cases hp : strct.typ ∈ path
    · rw [if_pos hp]
      exact fun x hx => hx
    · rw [if_neg hp]
      exact List.Subset.trans (List.subset_cons_self _ _)
        (inlineLoopF_path_mono _ (fun f fm' path' => ih g f fm' path') strct _ _ _)

theorem inline_fuel_core : ∀ k : Nat,
    (∀ n m, k ≤ n → k ≤ m → ∀ g strct fs,
      (∀ f ∈ fs, f.typ ∈ typeSet g) →
      ∀ fm path, newTypes g path ≤ k →
        inlineLoopF (inlineGo n g) strct fs fm path
          = inlineLoopF (inlineGo m g) strct fs fm path) ∧
    (∀ n m, k ≤ n → k ≤ m → ∀ g strct fm path,
      newTypes g (strct.typ :: path) ≤ k →
        inlineGo (n + 1) g strct fm path = inlineGo (m + 1) g strct fm path) := by
  intro k
  induction k with
  | zero =>
    have hloop : ∀ n m, 0 ≤ n → 0 ≤ m → ∀ g strct fs,
        (∀ f ∈ fs, f.typ ∈ typeSet g) →
        ∀ fm path, newTypes g path ≤ 0 →
          inlineLoopF (inlineGo n g) strct fs fm path
            = inlineLoopF (inlineGo m g) strct fs fm path := by
      intro n m _ _ g strct fs
      induction fs with
      | nil => intro _ fm path _; rfl
      | cons f rest ih =>
        intro hfs fm path hnew
        have hfs' : ∀ f' ∈ rest, f'.typ ∈ typeSet g :=
          fun f' hf' => hfs f' (List.mem_cons_of_mem _ hf')
        have hf : f.typ ∈ typeSet g := hfs f (List.mem_cons_self _ _)
        simp only [inlineLoopF]
        by_cases hk : (cloneInto strct f).kind = TKind.struct'
        · by_cases hp : (cloneInto strct f).typ ∈ path
          · simp only [if_pos hk, if_pos hp]
            exact ih hfs' _ _ hnew
          · exfalso
            have hmem : f.typ ∈ typeSet g \ path.toFinset :=
              Finset.mem_sdiff.mpr ⟨hf, by simpa using hp⟩
            have hpos : 0 < newTypes g path := Finset.card_pos.mpr ⟨_, hmem⟩
            omega
        · simp only [if_neg hk]
          exact ih hfs' _ _ hnew
    refine ⟨hloop, ?_⟩
    intro n m hn hm g strct fm path hnew
    simp only [inlineGo]
    by_cases hp : strct.typ ∈ path
    · simp only [if_pos hp]
    · simp only [if_neg hp]
      exact hloop n m (Nat.zero_le _) (Nat.zero_le _) g strct _
        (fun f hf => allFieldsOf_typ_mem g strct.typ f hf) fm (strct.typ :: path)
        hnew
  | succ k ihk =>
    obtain ⟨_, ihgo⟩ := ihk
    have hloop : ∀ n m, k + 1 ≤ n → k + 1 ≤ m → ∀ g strct fs,
        (∀ f ∈ fs, f.typ ∈ typeSet g) →
        ∀ fm path, newTypes g path ≤ k + 1 →
          inlineLoopF (inlineGo n g) strct fs fm path
            = inlineLoopF (inlineGo m g) strct fs fm path := by
      intro n m hn hm g strct fs
      induction fs with
      | nil => intro _ fm path _; rfl
      | cons f rest ih =>
        intro hfs fm path hnew
        have hfs' : ∀ f' ∈ rest, f'.typ ∈ typeSet g :=
          fun f' hf' => hfs f' (List.mem_cons_of_mem _ hf')
        have hf : f.typ ∈ typeSet g := hfs f (List.mem_cons_self _ _)
        simp only [inlineLoopF]
        by_cases hk : (cloneInto strct f).kind = TKind.struct'
        · by_cases hp : (cloneInto strct f).typ ∈ path
          · simp only [if_pos hk, if_pos hp]
            exact ih hfs' _ _ hnew
          · simp only [if_pos hk, if_neg hp]
            obtain ⟨n', rfl⟩ : ∃ n', n = n' + 1 := ⟨n - 1, by omega⟩
            obtain ⟨m', rfl⟩ : ∃ m', m = m' + 1 := ⟨m - 1, by omega⟩
            have hmem : f.typ ∈ typeSet g \ path.toFinset :=
              Finset.mem_sdiff.mpr ⟨hf, by simpa using hp⟩
            have hnew' : newTypes g ((cloneInto strct f).typ :: path) ≤ k := by
              show newTypes g (f.typ :: path) ≤ k
              unfold newTypes at hnew ⊢
              rw [List.toFinset_cons, Finset.sdiff_insert]
              rw [Finset.card_erase_of_mem hmem]
              omega
            have hgoeq := ihgo n' m' (by omega) (by omega) g (cloneInto strct f)
              (match fm.lookup (cloneInto strct f).name with
                | some _ => fm
                | none => ((cloneInto strct f).name, cloneInto strct f) :: fm)
              path hnew'
            rw [hgoeq]
            apply ih hfs'
            calc newTypes g (inlineGo (m' + 1) g (cloneInto strct f)
                  (match fm.lookup (cloneInto strct f).name with
                    | some _ => fm
                    | none => ((cloneInto strct f).name, cloneInto strct f) :: fm)
                  path).2
                ≤ newTypes g path := newTypes_anti g _ _ (inlineGo_path_mono _ _ _ _ _)
              _ ≤ k + 1 := hnew
        · simp only [if_neg hk]
          exact ih hfs' _ _ hnew
    refine ⟨hloop, ?_⟩
    intro n m hn hm g strct fm path hnew
    simp only [inlineGo]
    by_cases hp : strct.typ ∈ path
    · simp only [if_pos hp]
    · simp only [if_neg hp]
      exact hloop n m hn hm g strct _
        (fun f hf => allFieldsOf_typ_mem g strct.typ f hf) fm (strct.typ :: path)
        hnew

theorem inline_fuel_irrelevant (g : List Table) (strct : Field)
    (fm : List (String × Field)) (path : List Nat) (n m : Nat)
    (hn : (typeSet g).card + 1 ≤ n) (hm : (typeSet g).card + 1 ≤ m) :
    inlineGo n g strct fm path = inlineGo m g strct fm path := by
  obtain ⟨n', rfl⟩ : ∃ n', n = n' + 1 := ⟨n - 1, by omega⟩
  obtain ⟨m', rfl⟩ : ∃ m', m = m' + 1 := ⟨m - 1, by omega⟩
  have hcard : newTypes g (strct.typ :: path) ≤ (typeSet g).card := by
    unfold newTypes
    exact Finset.card_le_card (Finset.sdiff_subset)
  exact (inline_fuel_core (typeSet g).card).2 n' m' (by omega) (by omega)
    g strct fm path hcard

/-- C8: inlining terminates on every registry, self-referential and
mutually-referential ones included: once the recursion depth budget
reaches the visited-type-set bound (the owning type is seeded, every
visited type is added, and a type already in the set is skipped rather
than re-expanded), allowing any deeper recursion changes nothing, so
`inlineFields` — whose result is a finite field-map — is the recursion's
fixed point. -/
theorem c8_inline_cycle_safe (g : List Table) (ownerTyp : Nat) (strct : Field)
    (fm : List (String × Field)) (fuel : Nat)
    (h : (typeSet g).card + 1 ≤ fuel) :
    (inlineGo fuel g strct fm [ownerTyp]).1 = inlineFields g ownerTyp strct fm := by
  unfold inlineFields
  rw [inline_fuel_irrelevant g strct fm [ownerTyp] fuel ((typeSet g).card + 1) h
    (le_refl _)]

/-- Witness for C8 on the mutually-referential Node/Leaf registry (with
a self-referential type alongside): fuel far beyond the bound yields the
same finite result. -/
theorem c8_inline_cycle_safe_witness :
    ((typeSet gCycle).card + 1 ≤ 10) ∧
    (inlineGo 10 gCycle nodeChildField [] [10]).1
      = inlineFields gCycle 10 nodeChildField [] :=
  ⟨by decide, c8_inline_cycle_safe gCycle 10 nodeChildField [] 10 (by decide)⟩

end Bun
